import Mathlib

/-!
Verification of the kookykangaroo repository: a tool that parses Markdown
into a heading/paragraph tree (src/kookykangaroo/markdown_parser.py), writes
the tree to a Neo4j graph or renders an equivalent Cypher script
(src/kookykangaroo/neo4j_graph.py), and traverses a stored graph back into
Markdown text (src/kookykangaroo/traversal.py).  The Python code is embedded
shallowly: every function below is a direct translation of the corresponding
Python function, with mutation turned into explicit state passing and the
external Neo4j store modelled as lists of node records and CONTAINS edges.
-/

namespace KookyKangaroo

/-! ## Data model

`MarkdownNode` from markdown_parser.py carries `node_type`, `content`,
`level` (default 0) and a list of children.  The `parent` back-reference and
the mutable `id` field are not part of the pure tree value: the parent is
derivable from the tree shape and ids are assigned by the graph writer,
which below returns the assignment explicitly instead of mutating nodes. -/

structure NodeData where
  nodeType : String
  content : String
  level : Nat
deriving DecidableEq, Repr

/-- A Markdown AST node: `MarkdownNode` without the derived/mutable fields. -/
inductive Tree where
  | mk (data : NodeData) (children : List Tree)
deriving Repr

def Tree.data : Tree → NodeData
  | .mk d _ => d

def Tree.children : Tree → List Tree
  | .mk _ cs => cs

/-- `MarkdownNode("root")`: node_type "root", content "", level 0. -/
def rootData : NodeData := ⟨"root", "", 0⟩

/-! ## Tree Builder (markdown_parser.py, MarkdownTreeProcessor)

`_process_element` walks the ElementTree produced by the external markdown
engine in pre-order (the element itself, then its children); only `h1`..`h6`
and `p` elements have any effect.  We therefore embed the element stream as
the pre-order list of block elements seen by `_process_element`; `other`
stands for any element that is neither a heading nor a paragraph. -/

inductive Elem where
  | heading (level : Nat) (text : String)
  | para (text : String)
  | other
deriving DecidableEq, Repr

/-- Python `str.strip()` with no argument: remove leading and trailing
whitespace characters. -/
def strip (s : String) : String :=
  ⟨((s.data.dropWhile Char.isWhitespace).reverse.dropWhile Char.isWhitespace).reverse⟩

/-- An open node on the heading stack: its data plus the children attached
so far (Python mutates `node.children` in place; here the frame carries the
accumulated list and the node value is produced when the frame closes). -/
structure Frame where
  data : NodeData
  children : List Tree

def Frame.toTree (f : Frame) : Tree := .mk f.data f.children

/-- Attach a finished child at the end of a frame's children
(`MarkdownNode.add_child`). -/
def Frame.addChild (f : Frame) (t : Tree) : Frame :=
  ⟨f.data, f.children ++ [t]⟩

/-- Close the top frame into the frame below it: the finished node becomes
the last child of the node below (the effect of popping the Python heading
stack, where the popped node was already attached to its parent). -/
def closeFrame (top next : Frame) : Frame := next.addChild top.toTree

/-- The pop loop of `_process_element`:
`while len(self.heading_stack) > 1 and self.heading_stack[-1].level >= level`.
The stack is `(top, rest)` with the root frame at the bottom of `rest`
(or `top` itself when `rest = []`); the `len > 1` guard means the root is
never popped. -/
def popWhile (level : Nat) : Frame → List Frame → Frame × List Frame
  | top, [] => (top, [])
  | top, next :: rest =>
    if level ≤ top.data.level then popWhile level (closeFrame top next) rest
    else (top, next :: rest)

/-- One step of `_process_element` on a single block element.  The state is
the heading stack `(top, rest)`.  In the Python code paragraphs are attached
to `self.current_node`; `current_node` always equals `heading_stack[-1]`
(both start as the root, and the heading branch is the only code that
changes either, setting both to the new heading), so the paragraph branch
attaches to the stack top. -/
def processElem (s : Frame × List Frame) (e : Elem) : Frame × List Frame :=
  match e with
  | .heading level text =>
    let (top, rest) := popWhile level s.1 s.2
    -- node = MarkdownNode("heading", content, level); attach and push
    (⟨⟨"heading", strip text, level⟩, []⟩, top :: rest)
  | .para text =>
    let content := strip text
    if content = "" then s
    else (s.1.addChild (.mk ⟨"paragraph", content, 0⟩ []), s.2)
  | .other => s

/-- Initial processor state: `self.root = MarkdownNode("root")`,
`self.heading_stack = [self.root]`. -/
def initState : Frame × List Frame := (⟨rootData, []⟩, [])

/-- Fold the element stream through the processor. -/
def runElems (es : List Elem) : Frame × List Frame :=
  es.foldl processElem initState

/-- Close every remaining open frame into the root frame (at the end of the
run the Python nodes are already linked; here the frames are folded down). -/
def closeAll : Frame → List Frame → Frame
  | top, [] => top
  | top, next :: rest => closeAll (closeFrame top next) rest

/-- The tree returned by `MarkdownParser.parse` for a given element stream:
run `_process_element` over every block element, then read off
`processor.root`. -/
def buildTree (es : List Elem) : Tree :=
  (closeAll (runElems es).1 (runElems es).2).toTree

/-! ## Pre-order traversal (specification order for node ids) -/

mutual
def Tree.preorder : Tree → List Tree
  | .mk d cs => .mk d cs :: preorderList cs
def preorderList : List Tree → List Tree
  | [] => []
  | t :: ts => t.preorder ++ preorderList ts
end

/-! ## Graph Writer (neo4j_graph.py)

`_create_nodes`, `_generate_node_queries`, `_assign_node_ids` and the two
relationship emitters all run the same iterative loop:

    stack = [(root_node, 0)]
    while stack:
        parent, child_index = stack.pop()
        if child_index < len(parent.children):
            child = parent.children[child_index]
            stack.append((parent, child_index + 1))
            ... visit child ...
            if child.children:
                stack.append((child, 0))

`stackVisit` is that loop, returning the children visited in visit order
(each caller below maps its own emission over this list, exactly as each
Python function performs its emission at the `visit child` point).  The
while-loop is not structurally recursive, so it takes a fuel argument; the
callers pass `stackFuel`, an upper bound on the number of iterations, and
`stackVisit_spec` below shows the bound is always sufficient. -/

def stackVisit : Nat → List (Tree × Nat) → List Tree
  | 0, _ => []
  | _ + 1, [] => []
  | fuel + 1, (parent, i) :: rest =>
    match parent.children.get? i with
    | none => stackVisit fuel rest
    | some child =>
      let rest' := (parent, i + 1) :: rest
      child :: stackVisit fuel (if child.children.isEmpty then rest' else (child, 0) :: rest')

/-- Sum of the pending work on the stack, used to bound the loop. -/
def stackFuelFor (stack : List (Tree × Nat)) : Nat :=
  (stack.map (fun q => 2 * (preorderList (q.1.children.drop q.2)).length)).sum + stack.length

def stackFuel (t : Tree) : Nat := stackFuelFor [(t, 0)]

/-- The children of `t` visited by the shared writer loop, in visit order. -/
def visitOrder (t : Tree) : List Tree := stackVisit (stackFuel t) [(t, 0)]

/-- Ids as strings: `f"node_{n}"`. -/
def nodeId (n : Nat) : String := "node_" ++ toString n

/-- `_assign_node_ids`: the root gets `node_0`, then the loop gives each
visited child `node_{node_count}` with the counter starting at 1.  Python
stores the id on the mutable node; here the assignment is returned as a
list of (id, node) pairs in assignment order. -/
def assignNodeIds (t : Tree) : List (String × Tree) :=
  (nodeId 0, t) :: (visitOrder t).enum.map (fun p => (nodeId (p.1 + 1), p.2))

/-- One node-creation statement, as the data it carries: the Cypher text in
both writer modes is `CREATE (:Node ...)` with these properties, `level`
absent when the property is not included in the statement. -/
structure NodeStmt where
  id : String
  nodeType : String
  content : String
  level : Option Nat
deriving DecidableEq, Repr

/-- `_create_nodes` (live-write mode): the root statement passes id, type
and content only; every child statement is the four-parameter query
`CREATE (n:Node {id, type, content, level})` whose `level` parameter is
always `child.level` (0 for paragraphs), never omitted. -/
def liveNodeStmts (t : Tree) : List NodeStmt :=
  ⟨nodeId 0, t.data.nodeType, t.data.content, none⟩ ::
    (visitOrder t).enum.map
      (fun p => ⟨nodeId (p.1 + 1), p.2.data.nodeType, p.2.data.content, some p.2.data.level⟩)

/-- `_escape_string`: `s.replace("'", "\\'")`, replacing every single-quote
character by a backslash followed by a single quote. -/
def escapeString (s : String) : String :=
  ⟨(s.data.map (fun c => if c = '\'' then ['\\', '\''] else [c])).flatten⟩

/-- `_generate_node_queries` (script mode): the root line is the constant
`CREATE (node_0:Node {id: 'node_0', type: 'root', content: ''});`; each
child line carries id, type and escaped content, and appends
`, level: {child.level}` only when `child.level > 0`. -/
def scriptNodeStmts (t : Tree) : List NodeStmt :=
  ⟨nodeId 0, "root", "", none⟩ ::
    (visitOrder t).enum.map
      (fun p =>
        ⟨nodeId (p.1 + 1), p.2.data.nodeType, escapeString p.2.data.content,
          if p.2.data.level > 0 then some p.2.data.level else none⟩)

/-! ## Store model and Graph Reader (neo4j_graph.py / traversal.py)

A persisted node record as returned to Python by the driver: a property map
with keys id, type, content and optionally level.  `level` is `none` when
the record has no level property (Cypher `null`). -/

structure StoreRec where
  id : String
  rtype : String
  content : String
  level : Option Nat
deriving DecidableEq, Repr

/-- `Neo4jGraph.get_root_node`: `MATCH (n:Node {type: 'root'}) RETURN n`,
then the first record if any, else `None`. -/
def getRootNode (nodes : List StoreRec) : Option StoreRec :=
  (nodes.filter (fun r => r.rtype = "root")).head?

/-- Record ordering used by `get_children`'s `ORDER BY child.level, child.id`
(ascending; a missing `level` is Cypher `null`, which sorts after every
number in ascending order; ids compare as strings). -/
def recLE (a b : StoreRec) : Bool :=
  match a.level, b.level with
  | some x, some y => x < y ∨ (x = y ∧ a.id ≤ b.id)
  | some _, none => true
  | none, some _ => false
  | none, none => a.id ≤ b.id

/-- Insert into a list sorted by `recLE` (the `(level, id)` key is total on
records with distinct ids, so any sort realises the store's ORDER BY). -/
def insertRec (a : StoreRec) : List StoreRec → List StoreRec
  | [] => [a]
  | b :: bs => if recLE a b then a :: b :: bs else b :: insertRec a bs

def sortRecs (rs : List StoreRec) : List StoreRec := rs.foldr insertRec []

/-- `Neo4jGraph.get_children`: match the CONTAINS edges out of `node_id`
and return the child records ordered by `(level, id)` ascending. -/
def getChildren (nodes : List StoreRec) (edges : List (String × String))
    (nodeId : String) : List StoreRec :=
  sortRecs (nodes.filter (fun r => (nodeId, r.id) ∈ edges))

/-- The lines `GraphTraversal._traverse_node` appends for one child record
before recursing into it: headings yield `"#" * level + " " + content` and a
blank line, with `child.get("level", 1)` defaulting a missing level to 1;
paragraphs yield their content and a blank line; other types yield nothing. -/
def childLines (child : StoreRec) : List String :=
  if child.rtype = "heading" then
    [String.mk (List.replicate (child.level.getD 1) '#') ++ " " ++ child.content, ""]
  else if child.rtype = "paragraph" then
    [child.content, ""]
  else []

/-- `GraphTraversal._traverse_node`, with the store abstracted to a
`childrenOf` function: for each child append its lines, then recurse.  The
Python recursion follows whatever edges the store holds; on a cyclic store
it would not terminate, so the embedding takes fuel (any value at least the
height of the stored tree gives the Python behaviour). -/
def traverseNode (childrenOf : String → List StoreRec) :
    Nat → String → List String → List String
  | 0, _, lines => lines
  | fuel + 1, nodeId, lines =>
    (childrenOf nodeId).foldl
      (fun acc child => traverseNode childrenOf fuel child.id (acc ++ childLines child))
      lines

/-- `GraphTraversal.traverse_and_print`: returns the rendered Markdown text
together with the log lines emitted (level, message).  A missing root node
logs an error and yields the empty string; otherwise the collected lines
are joined with newlines. -/
def traverseAndPrint (root? : Option StoreRec) (childrenOf : String → List StoreRec)
    (fuel : Nat) : String × List (String × String) :=
  match root? with
  | none => ("", [("INFO", "Traversing graph"), ("ERROR", "Root node not found in graph")])
  | some root =>
    (String.intercalate "\n" (traverseNode childrenOf fuel root.id []),
      [("INFO", "Traversing graph")])

/-! ## CLI command flow (cli.py)

The two commands are modelled by the sequence of connection-relevant events
they execute and their exit code.  External failures are injected as flags:
`readFails` (open/read of the input file raises), `connectFails`
(`GraphDatabase.driver` raises inside `connect`), `opFails` (a statement
inside `create_graph` / `traverse_and_print` raises).  The `try`/`except`
in each command catches any exception, logs it and exits 1; there is no
`finally` block, so nothing runs after the point of failure. -/

inductive CliEvent where
  | connect
  | createOps
  | printOutput
  | disconnect
deriving DecidableEq, Repr

/-- `cli.create_graph`: credentials, read file, parse, connect,
create_graph, disconnect; any raise jumps to the handler which exits 1. -/
def createGraphCmd (readFails connectFails opFails : Bool) : List CliEvent × Nat :=
  if readFails then ([], 1)
  else if connectFails then ([], 1)
  else if opFails then ([.connect], 1)
  else ([.connect, .createOps, .disconnect], 0)

/-- `cli.traverse_graph`: credentials, connect, traverse_and_print, print,
disconnect; any raise jumps to the handler which exits 1. -/
def traverseGraphCmd (connectFails opFails : Bool) : List CliEvent × Nat :=
  if connectFails then ([], 1)
  else if opFails then ([.connect], 1)
  else ([.connect, .printOutput, .disconnect], 0)

/-! ## Credentials (credentials.py) -/

/-- Python `x or y` for `x` an optional string: `None` and `""` are falsy. -/
def pyOr (v : Option String) (dflt : String) : String :=
  match v with
  | none => dflt
  | some s => if s = "" then dflt else s

/-- `os.environ.get(key, default)`: the variable's value when set (even when
set to the empty string), else the default. -/
def envGet (env : String → Option String) (key dflt : String) : String :=
  (env key).getD dflt

/-- `get_neo4j_credentials`: each parameter resolves as
`param or os.environ.get(VAR, default)`. -/
def getNeo4jCredentials (uri username password : Option String)
    (env : String → Option String) : String × String × String :=
  (pyOr uri (envGet env "NEO4J_URI" "bolt://localhost:7687"),
   pyOr username (envGet env "NEO4J_USERNAME" "neo4j"),
   pyOr password (envGet env "NEO4J_PASSWORD" "neo4j"))

/-! ## MarkdownParser.parse (markdown_parser.py)

The external Markdown engine (`markdown.Markdown(extensions=["extra"])`,
out of scope per the spec) is abstracted as a function from the input text
to the pre-order block-element stream it hands to tree processors.  `parse`
constructs a fresh `MarkdownTreeProcessor` (fresh root, fresh stack),
registers it under the fixed name "ast_extractor" (replacing the processor
left by any earlier call), converts, and returns the fresh processor's
root.  The only instance state that survives a call is the registered
processor, carried here as the tree it built. -/

structure MdInstance where
  registered : Option Tree

def MdInstance.fresh : MdInstance := ⟨none⟩

/-- `MarkdownParser.parse`: returns the parsed tree and the parser state
left behind for subsequent calls. -/
def parseMd (engine : String → List Elem) (_st : MdInstance) (text : String) :
    Tree × MdInstance :=
  let processorRoot := buildTree (engine text)
  (processorRoot, ⟨some processorRoot⟩)

/-! ## Heading structure of a stream and of a tree (specification side of C1)

The claim about heading nesting identifies heading nodes by their position
in document order.  `headingLevels`/`headingDatas` read the headings off the
element stream; `hdTree` reads the heading nodes of a built tree in
pre-order; `headingParents` computes, for each heading node in pre-order,
the pre-order heading position of the closest enclosing heading node
(`none` when its parent chain up to the root contains no heading). -/

def headingLevels (es : List Elem) : List Nat :=
  es.filterMap (fun e => match e with | .heading l _ => some l | _ => none)

def headingDatas (es : List Elem) : List NodeData :=
  es.filterMap
    (fun e => match e with | .heading l t => some ⟨"heading", strip t, l⟩ | _ => none)

mutual
def hdTree : Tree → List NodeData
  | .mk d cs => (if d.nodeType = "heading" then [d] else []) ++ hdChildren cs
def hdChildren : List Tree → List NodeData
  | [] => []
  | t :: ts => hdTree t ++ hdChildren ts
end

mutual
def hpTree : Option Nat → Nat → Tree → Nat × List (Option Nat)
  | p, c, .mk d cs =>
    if d.nodeType = "heading" then
      let r := hpChildren (some c) (c + 1) cs
      (r.1, p :: r.2)
    else hpChildren p c cs
def hpChildren : Option Nat → Nat → List Tree → Nat × List (Option Nat)
  | _, c, [] => (c, [])
  | p, c, t :: ts =>
    let r1 := hpTree p c t
    let r2 := hpChildren p r1.1 ts
    (r2.1, r1.2 ++ r2.2)
end

/-- For each heading node of `t` in pre-order, the pre-order heading index
of the nearest heading ancestor (`none` for headings whose every ancestor
up to the root is a non-heading node). -/
def headingParents (t : Tree) : List (Option Nat) := (hpTree none 0 t).2

/-- The claim's parent: the greatest `j < k` with `ls[j] < ls[k]` — the
nearest preceding heading of strictly smaller level, `none` when no
preceding heading has a smaller level. -/
def lastLower (ls : List Nat) (k : Nat) : Option Nat :=
  ((List.range k).filter (fun j => ls.getD j 0 < ls.getD k 0)).getLast?

/-- The parent demanded by the claim, for every heading position. -/
def specParents (ls : List Nat) : List (Option Nat) :=
  (List.range ls.length).map (lastLower ls)

/-- The greatest `j` with `ls[j] < l` — where a new heading of level `l`
arriving after `ls` must attach. -/
def lastBelow (ls : List Nat) (l : Nat) : Option Nat :=
  ((List.range ls.length).filter (fun j => ls.getD j 0 < l)).getLast?

/-! ## Invariant machinery for the Tree Builder proof

`visStack` computes the `(document index, level)` pairs of the headings
that are still visible (would be on the heading stack) after processing a
level sequence, topmost first.  `hpFrames`/`hdFrames` evaluate
`hpTree`/`hdTree` over a builder state presented as its frame list from the
root frame outwards, and `StackOk` is the stack-shape invariant: each open
frame is a heading frame whose document index equals the heading counter at
the point the pre-order traversal reaches it. -/

def pushVis (st : List (Nat × Nat)) (j l : Nat) : List (Nat × Nat) :=
  (j, l) :: st.dropWhile (fun q => l ≤ q.2)

def visStack (ls : List Nat) : List (Nat × Nat) :=
  ls.enum.foldl (fun st q => pushVis st q.1 q.2) []

/-- The heading stack of a builder state, topmost frame first; the root
frame is the last element. -/
def frames (S : Frame × List Frame) : List Frame := S.1 :: S.2

/-- `hpTree` evaluated over an open builder state, frames topmost first:
the lower frames are processed before the frame above them (when the state
closes, each frame becomes the last child of the frame below).  Returns the
pending parent pointer, the heading counter, and the parent records. -/
def hpFramesR : Option Nat → Nat → List Frame → Option Nat × Nat × List (Option Nat)
  | p, c, [] => (p, c, [])
  | p, c, f :: fs =>
    let r := hpFramesR p c fs
    if f.data.nodeType = "heading" then
      let r1 := hpChildren (some r.2.1) (r.2.1 + 1) f.children
      (some r.2.1, r1.1, r.2.2 ++ r.1 :: r1.2)
    else
      let r1 := hpChildren r.1 r.2.1 f.children
      (r.1, r1.1, r.2.2 ++ r1.2)

/-- `hdTree` evaluated over an open builder state, frames topmost first. -/
def hdFramesR : List Frame → List NodeData
  | [] => []
  | f :: fs =>
    hdFramesR fs ++ (if f.data.nodeType = "heading" then [f.data] else []) ++
      hdChildren f.children

/-- Shape invariant of the open heading frames (topmost first, root frame
excluded) against the visible-heading stack `vs` (topmost first): each open
frame is a heading frame whose level is the recorded level and whose
document index is the heading counter at the point the pre-order traversal
reaches it; `cBot` is the counter entering from below the lowest open
frame, `cTop` the counter after the topmost frame's children. -/
def StackOkT : List Frame → List (Nat × Nat) → Nat → Nat → Prop
  | [], [], cBot, cTop => cBot = cTop
  | f :: fs, (j, lv) :: vs, cBot, cTop =>
    f.data.nodeType = "heading" ∧ f.data.level = lv ∧
      StackOkT fs vs cBot j ∧
      (hpChildren (some j) (j + 1) f.children).1 = cTop
  | _, _, _, _ => False

/-- The builder-state invariant: `vs` the visible headings, `n` the number
of headings seen, `ps` their parent records, `hds` their data in document
order. -/
def StateInv (S : Frame × List Frame) (vs : List (Nat × Nat)) (n : Nat)
    (ps : List (Option Nat)) (hds : List NodeData) : Prop :=
  ∃ hfs rootF,
    frames S = hfs ++ [rootF] ∧
    rootF.data = rootData ∧
    StackOkT hfs vs (hpChildren none 0 rootF.children).1 n ∧
    (hpFramesR none 0 (frames S)).2 = (n, ps) ∧
    hdFramesR (frames S) = hds

/-- The full builder invariant over the processed prefix `p`. -/
def GoodState (p : List Elem) (S : Frame × List Frame) : Prop :=
  StateInv S (visStack (headingLevels p)) (headingLevels p).length
    (specParents (headingLevels p)) (headingDatas p)

/-! ## Specification view of the writer loop -/

/-- What the writer loop still has to visit for a given stack: the pre-order
lists of the unvisited child subtrees. -/
def visitSpec (stack : List (Tree × Nat)) : List Tree :=
  (stack.map (fun q => preorderList (q.1.children.drop q.2))).flatten

/-! ## Concrete inputs used by counterexamples and scenario evaluations -/

/-- A tree with one paragraph child, as `parse("Some paragraph\n")` builds. -/
def exTreeC3 : Tree := .mk rootData [.mk ⟨"paragraph", "Some paragraph", 0⟩ []]

/-- The stored graph of Scenario 2: root → heading "Header 1" (level 1) →
[paragraph "Paragraph 1", heading "Header 2" (level 2)], with the level
property exactly as the live writer stores it (0 on the paragraph). -/
def scenarioNodes : List StoreRec :=
  [⟨"node_0", "root", "", none⟩,
   ⟨"node_1", "heading", "Header 1", some 1⟩,
   ⟨"node_2", "paragraph", "Paragraph 1", some 0⟩,
   ⟨"node_3", "heading", "Header 2", some 2⟩]

def scenarioEdges : List (String × String) :=
  [("node_0", "node_1"), ("node_1", "node_2"), ("node_1", "node_3")]

/-! ## Lemmas: the writer loop visits children in pre-order -/

theorem preorder_unfold (d : NodeData) (cs : List Tree) :
    Tree.preorder (.mk d cs) = .mk d cs :: preorderList cs := by
  simp [Tree.preorder]

theorem preorderList_nil : preorderList [] = [] := by simp [preorderList]

theorem preorderList_cons (t : Tree) (ts : List Tree) :
    preorderList (t :: ts) = t.preorder ++ preorderList ts := by
  simp [preorderList]

theorem preorder_cons (t : Tree) : t.preorder = t :: preorderList t.children := by
  cases t with
  | mk d cs => rw [preorder_unfold]; rfl

theorem preorder_length (t : Tree) :
    t.preorder.length = (preorderList t.children).length + 1 := by
  rw [preorder_cons]; simp

theorem stackFuelFor_cons (q : Tree × Nat) (rest : List (Tree × Nat)) :
    stackFuelFor (q :: rest) =
      2 * (preorderList (q.1.children.drop q.2)).length + stackFuelFor rest + 1 := by
  simp [stackFuelFor]; omega

theorem stackVisit_spec :
    ∀ fuel stack, stackFuelFor stack ≤ fuel → stackVisit fuel stack = visitSpec stack := by
  intro fuel
  induction fuel with
  | zero =>
    intro stack h
    have hlen : stack.length = 0 := by
      have : stack.length ≤ stackFuelFor stack := by
        simp [stackFuelFor]
      omega
    rw [List.length_eq_zero] at hlen
    subst hlen
    simp [stackVisit, visitSpec]
  | succ fuel ih =>
    intro stack h
    match stack with
    | [] => simp [stackVisit, visitSpec]
    | (parent, i) :: rest =>
      rw [stackFuelFor_cons] at h
      show stackVisit (fuel + 1) ((parent, i) :: rest) = _
      rw [stackVisit]
      cases hc : parent.children.get? i with
      | none =>
        have hge : parent.children.length ≤ i := List.get?_eq_none.mp hc
        have hdrop : parent.children.drop i = [] := List.drop_eq_nil_of_le hge
        rw [ih rest (by simp at h; omega)]
        simp [visitSpec, hdrop, preorderList_nil]
      | some child =>
        dsimp only
        have hlt : i < parent.children.length := by
          by_contra hge
          rw [List.get?_eq_none.mpr (by omega)] at hc
          exact Option.noConfusion hc
        have hget : parent.children[i] = child := by
          have := List.get?_eq_get hlt
          rw [hc] at this
          exact (Option.some_injective _ this.symm)
        have hdrop : parent.children.drop i = child :: parent.children.drop (i + 1) := by
          rw [List.drop_eq_getElem_cons hlt, hget]
        have hsplit :
            preorderList (parent.children.drop i) =
              child.preorder ++ preorderList (parent.children.drop (i + 1)) := by
          rw [hdrop, preorderList_cons]
        dsimp only at h
        cases hemp : child.children.isEmpty with
        | true =>
          have hcc : child.children = [] := by
            cases hcs : child.children with
            | nil => rfl
            | cons a as => rw [hcs] at hemp; simp [List.isEmpty] at hemp
          have hpre : child.preorder = [child] := by
            rw [preorder_cons, hcc, preorderList_nil]
          rw [if_pos rfl]
          rw [ih ((parent, i + 1) :: rest) ?hf]
          case hf =>
            rw [stackFuelFor_cons]
            dsimp only
            have : (preorderList (parent.children.drop i)).length =
                (preorderList (parent.children.drop (i + 1))).length + 1 := by
              rw [hsplit, hpre]; simp
            omega
          simp [visitSpec, hsplit, hpre]
        | false =>
          rw [if_neg Bool.false_ne_true]
          rw [ih ((child, 0) :: (parent, i + 1) :: rest) ?hf]
          case hf =>
            rw [stackFuelFor_cons, stackFuelFor_cons]
            dsimp only
            have : (preorderList (parent.children.drop i)).length =
                (preorderList child.children).length +
                  (preorderList (parent.children.drop (i + 1))).length + 1 := by
              rw [hsplit, preorder_cons]; simp
            simp only [List.drop_zero]
            omega
          simp [visitSpec, hsplit, preorder_cons child]

theorem visitOrder_eq (t : Tree) : visitOrder t = preorderList t.children := by
  unfold visitOrder stackFuel
  rw [stackVisit_spec _ _ le_rfl]
  simp [visitSpec]

/-! ## Enumeration helpers -/

theorem enumFrom_shift {α : Type} (l : List α) :
    ∀ n : Nat, l.enumFrom n = l.enum.map (fun p => (p.1 + n, p.2)) := by
  induction l with
  | nil => intro n; rfl
  | cons a l ih =>
    intro n
    show (n, a) :: l.enumFrom (n + 1) = (a :: l).enum.map _
    have h1 : (a :: l).enum = (0, a) :: l.enumFrom 1 := rfl
    rw [h1, ih (n + 1), ih 1, List.map_cons, List.map_map]
    congr 1
    · simp
    · apply List.map_congr_left
      intro p _
      simp only [Function.comp_apply, Prod.mk.injEq]
      exact ⟨by omega, trivial⟩

theorem map_enumFrom_one {α β : Type} (l : List α) (f : Nat × α → β) :
    (l.enumFrom 1).map f = l.enum.map (fun p => f (p.1 + 1, p.2)) := by
  rw [enumFrom_shift l 1, List.map_map]
  rfl

theorem enum_cons {α : Type} (a : α) (l : List α) :
    (a :: l).enum = (0, a) :: l.enumFrom 1 := rfl

/-! ## C2: node ids are assigned in pre-order, identically on all paths -/

/-- C2.  Id assignment gives the root id "node_0" and gives every other node
id "node_n" where n is its 1-based position in the pre-order traversal of
the tree (children in stored order); the assignment is a pure function of
the tree (hence identical on repetition), and the live-write path
(`_create_nodes`) and the script path (`_generate_node_queries`, which
first calls `_assign_node_ids`) emit exactly these ids in the same order. -/
theorem C2_preorder_ids :
    ∀ t : Tree,
      assignNodeIds t = t.preorder.enum.map (fun p => (nodeId p.1, p.2)) ∧
      (liveNodeStmts t).map NodeStmt.id = t.preorder.enum.map (fun p => nodeId p.1) ∧
      (scriptNodeStmts t).map NodeStmt.id = t.preorder.enum.map (fun p => nodeId p.1) := by
  intro t
  have hv : visitOrder t = preorderList t.children := visitOrder_eq t
  have hpre : t.preorder = t :: preorderList t.children := preorder_cons t
  refine ⟨?_, ?_, ?_⟩
  · rw [assignNodeIds, hv, hpre, enum_cons, List.map_cons, map_enumFrom_one]
  · rw [liveNodeStmts, hv, hpre, enum_cons, List.map_cons, List.map_cons, map_enumFrom_one,
      List.map_map]
    rfl
  · rw [scriptNodeStmts, hv, hpre, enum_cons, List.map_cons, List.map_cons, map_enumFrom_one,
      List.map_map]
    rfl

/-! ## C3: what the node-creation statements carry -/

/-- C3 counterexample.  In the live-write path the claim fails: for the tree
with a single paragraph child, the paragraph's creation statement passes
`level` explicitly (with value 0) instead of omitting it. -/
theorem C3_level_counterexample :
    ¬ ∀ s ∈ liveNodeStmts exTreeC3, s.nodeType ≠ "heading" → s.level = none := by
  decide

/-- C3 amended.  Both writer paths emit exactly one node-creation statement
per tree node, in pre-order, carrying id, type and content.  In the
generated-script path the root line is the fixed root statement and a child
line carries `level` exactly when the node's level is positive (so it is
omitted for paragraphs); in the live-write path the root statement omits
`level` but every child statement passes `level` explicitly — 0, not
absent, for paragraphs. -/
theorem C3_node_statements :
    ∀ t : Tree,
      liveNodeStmts t =
        ⟨nodeId 0, t.data.nodeType, t.data.content, none⟩ ::
          (preorderList t.children).enum.map
            (fun p =>
              ⟨nodeId (p.1 + 1), p.2.data.nodeType, p.2.data.content, some p.2.data.level⟩) ∧
      scriptNodeStmts t =
        ⟨nodeId 0, "root", "", none⟩ ::
          (preorderList t.children).enum.map
            (fun p =>
              ⟨nodeId (p.1 + 1), p.2.data.nodeType, escapeString p.2.data.content,
                if p.2.data.level > 0 then some p.2.data.level else none⟩) ∧
      (liveNodeStmts t).length = t.preorder.length ∧
      (scriptNodeStmts t).length = t.preorder.length := by
  intro t
  have hv : visitOrder t = preorderList t.children := visitOrder_eq t
  have hlen : t.preorder.length = (preorderList t.children).length + 1 := preorder_length t
  refine ⟨?_, ?_, ?_, ?_⟩
  · rw [liveNodeStmts, hv]
  · rw [scriptNodeStmts, hv]
  · rw [liveNodeStmts, hv, hlen]; simp
  · rw [scriptNodeStmts, hv, hlen]; simp

/-! ## C5: scenario 2 traversal output -/

/-- C5.  Reading the stored scenario-2 graph yields
`"# Header 1\n\nParagraph 1\n\n## Header 2\n"` — a single trailing newline,
because `"\n".join` of the collected lines (which end with an empty
separator line) produces one final newline, not two.  The claimed string
(asserted also by the repository's own test) differs: it ends in two
newlines. -/
theorem C5_scenario2_output :
    traverseAndPrint (getRootNode scenarioNodes) (getChildren scenarioNodes scenarioEdges) 4 =
      ("# Header 1\n\nParagraph 1\n\n## Header 2\n", [("INFO", "Traversing graph")]) ∧
    "# Header 1\n\nParagraph 1\n\n## Header 2\n" ≠
      "# Header 1\n\nParagraph 1\n\n## Header 2\n\n" := by
  refine ⟨by decide, by decide⟩

/-! ## C6: missing root node -/

/-- C6.  When no stored node has type "root", traversal returns the empty
string, logs the "Root node not found in graph" error, and (being a total
function of the store) raises nothing. -/
theorem C6_missing_root :
    ∀ (nodes : List StoreRec) (edges : List (String × String)) (fuel : Nat),
      (∀ r ∈ nodes, r.rtype ≠ "root") →
      traverseAndPrint (getRootNode nodes) (getChildren nodes edges) fuel =
        ("", [("INFO", "Traversing graph"), ("ERROR", "Root node not found in graph")]) := by
  intro nodes edges fuel h
  have hroot : getRootNode nodes = none := by
    unfold getRootNode
    have hf : nodes.filter (fun r => r.rtype = "root") = [] := by
      rw [List.filter_eq_nil_iff]
      intro a ha
      simpa using h a ha
    rw [hf]
    rfl
  rw [hroot]
  rfl

theorem C6_missing_root_witness :
    traverseAndPrint (getRootNode []) (getChildren [] []) 0 =
      ("", [("INFO", "Traversing graph"), ("ERROR", "Root node not found in graph")]) :=
  C6_missing_root [] [] 0 (by simp)

/-! ## C7: connection lifetime in the CLI commands -/

/-- C7 counterexample.  When `create_graph` raises after a successful
`connect` (here: a statement failure during graph creation), the command's
event trace contains the connect but no disconnect: the `try`/`except` in
cli.py has no `finally`, so `graph.disconnect()` is skipped on the
exception path. -/
theorem C7_connection_counterexample :
    (createGraphCmd false false true).1.contains CliEvent.connect = true ∧
    (createGraphCmd false false true).1.contains CliEvent.disconnect = false := by
  decide

/-- C7 amended.  In both commands the connection is closed exactly on the
fully successful path: a disconnect event appears in the trace iff the
command exits 0, and on the failure-after-connect path the trace is just
the connect event. -/
theorem C7_connection_close :
    ∀ rf cf opf : Bool,
      ((createGraphCmd rf cf opf).1.contains CliEvent.disconnect =
        ((createGraphCmd rf cf opf).2 == 0)) ∧
      ((traverseGraphCmd cf opf).1.contains CliEvent.disconnect =
        ((traverseGraphCmd cf opf).2 == 0)) ∧
      (createGraphCmd false false true).1 = [CliEvent.connect] ∧
      (traverseGraphCmd false true).1 = [CliEvent.connect] := by
  intro rf cf opf
  cases rf <;> cases cf <;> cases opf <;> decide

/-! ## C8: parsing the same text twice -/

/-- C8.  Parsing the same text a second time with the same parser yields the
same tree: `parse` builds a fresh processor (fresh root and stack) on every
call, so the result does not depend on the state left by the first call. -/
theorem C8_parse_idempotent :
    ∀ (engine : String → List Elem) (st : MdInstance) (text : String),
      (parseMd engine st text).1 = (parseMd engine (parseMd engine st text).2 text).1 := by
  intro engine st text
  rfl

/-! ## C9: heading records without a level attribute -/

/-- C9.  During read-back, a child record of type "heading" with no level
attribute is rendered with `"#" * child.get("level", 1)` = exactly one '#',
a space, and its content, followed by the blank separator line. -/
theorem C9_default_level :
    ∀ c : StoreRec, c.rtype = "heading" → c.level = none →
      childLines c = [String.mk (List.replicate 1 '#') ++ " " ++ c.content, ""] := by
  intro c h1 h2
  simp [childLines, h1, h2]

theorem C9_default_level_witness :
    childLines ⟨"n1", "heading", "Title", none⟩ = ["# Title", ""] := by
  rw [C9_default_level ⟨"n1", "heading", "Title", none⟩ rfl rfl]
  rfl

/-! ## C10: credential resolution -/

theorem pyOr_env_ne (env : String → Option String) (k dflt : String) (v? : Option String)
    (hd : dflt ≠ "") (h : ∀ v, env k = some v → v ≠ "") :
    pyOr v? (envGet env k dflt) ≠ "" := by
  have hbase : envGet env k dflt ≠ "" := by
    unfold envGet
    cases hv : env k with
    | none => simpa using hd
    | some v => simpa using h v hv
  cases v? with
  | none => simpa [pyOr] using hbase
  | some s =>
    by_cases hs : s = "" <;> simp [pyOr, hs, hbase]

/-- C10.  An explicitly passed empty string is falsy in Python's `or`, so it
resolves exactly like an absent parameter; and whenever the corresponding
environment variable is absent or non-empty (the defaults being the
non-empty hard-coded values), the returned uri/username/password is
non-empty. -/
theorem C10_credentials :
    ∀ (env : String → Option String) (u un pw : Option String),
      getNeo4jCredentials (some "") (some "") (some "") env =
        getNeo4jCredentials none none none env ∧
      ((∀ v, env "NEO4J_URI" = some v → v ≠ "") →
        (getNeo4jCredentials u un pw env).1 ≠ "") ∧
      ((∀ v, env "NEO4J_USERNAME" = some v → v ≠ "") →
        (getNeo4jCredentials u un pw env).2.1 ≠ "") ∧
      ((∀ v, env "NEO4J_PASSWORD" = some v → v ≠ "") →
        (getNeo4jCredentials u un pw env).2.2 ≠ "") := by
  intro env u un pw
  refine ⟨rfl, ?_, ?_, ?_⟩
  · intro h
    exact pyOr_env_ne env "NEO4J_URI" "bolt://localhost:7687" u (by decide) h
  · intro h
    exact pyOr_env_ne env "NEO4J_USERNAME" "neo4j" un (by decide) h
  · intro h
    exact pyOr_env_ne env "NEO4J_PASSWORD" "neo4j" pw (by decide) h

theorem C10_credentials_witness :
    getNeo4jCredentials (some "") (some "") (some "") (fun _ => none) =
      getNeo4jCredentials none none none (fun _ => none) ∧
    (getNeo4jCredentials none none none (fun _ => none)).1 ≠ "" ∧
    (getNeo4jCredentials none none none (fun _ => none)).2.1 ≠ "" ∧
    (getNeo4jCredentials none none none (fun _ => none)).2.2 ≠ "" :=
  have h := C10_credentials (fun _ => none) none none none
  ⟨h.1, h.2.1 (fun _ hv => nomatch hv), h.2.2.1 (fun _ hv => nomatch hv),
    h.2.2.2 (fun _ hv => nomatch hv)⟩

/-! ## Lemmas about the heading-structure extractors -/

theorem hpTree_mk (p : Option Nat) (c : Nat) (d : NodeData) (cs : List Tree) :
    hpTree p c (.mk d cs) =
      if d.nodeType = "heading" then
        ((hpChildren (some c) (c + 1) cs).1, p :: (hpChildren (some c) (c + 1) cs).2)
      else hpChildren p c cs := by
  simp [hpTree]

theorem hpChildren_nil (p : Option Nat) (c : Nat) : hpChildren p c [] = (c, []) := by
  simp [hpChildren]

theorem hpChildren_cons (p : Option Nat) (c : Nat) (t : Tree) (ts : List Tree) :
    hpChildren p c (t :: ts) =
      ((hpChildren p (hpTree p c t).1 ts).1,
        (hpTree p c t).2 ++ (hpChildren p (hpTree p c t).1 ts).2) := by
  simp [hpChildren]

theorem hpChildren_append (p : Option Nat) (xs ys : List Tree) :
    ∀ c, hpChildren p c (xs ++ ys) =
      ((hpChildren p (hpChildren p c xs).1 ys).1,
        (hpChildren p c xs).2 ++ (hpChildren p (hpChildren p c xs).1 ys).2) := by
  induction xs with
  | nil => intro c; simp [hpChildren_nil]
  | cons t ts ih => intro c; simp [hpChildren_cons, ih, List.append_assoc]

theorem hpChildren_single (p : Option Nat) (c : Nat) (t : Tree) :
    hpChildren p c [t] = ((hpTree p c t).1, (hpTree p c t).2) := by
  simp [hpChildren_cons, hpChildren_nil]

theorem hpTree_para (p : Option Nat) (c : Nat) (content : String) :
    hpTree p c (.mk ⟨"paragraph", content, 0⟩ []) = (c, []) := by
  simp [hpTree_mk, hpChildren_nil]

theorem hdTree_mk (d : NodeData) (cs : List Tree) :
    hdTree (.mk d cs) =
      (if d.nodeType = "heading" then [d] else []) ++ hdChildren cs := by
  simp [hdTree]

theorem hdChildren_nil : hdChildren [] = [] := by simp [hdChildren]

theorem hdChildren_cons (t : Tree) (ts : List Tree) :
    hdChildren (t :: ts) = hdTree t ++ hdChildren ts := by
  simp [hdChildren]

theorem hdChildren_append (xs ys : List Tree) :
    hdChildren (xs ++ ys) = hdChildren xs ++ hdChildren ys := by
  induction xs with
  | nil => simp [hdChildren_nil]
  | cons t ts ih => simp [hdChildren_cons, ih]

theorem hdTree_para (content : String) :
    hdTree (.mk ⟨"paragraph", content, 0⟩ []) = [] := by
  simp [hdTree_mk, hdChildren_nil]

/-! ## Lemmas about the frame-stack evaluators -/

theorem hpFramesR_merge (p : Option Nat) (c : Nat) (top next : Frame) (rest : List Frame) :
    (hpFramesR p c (closeFrame top next :: rest)).2 = (hpFramesR p c (top :: next :: rest)).2 := by
  by_cases hnext : next.data.nodeType = "heading" <;>
    by_cases htop : top.data.nodeType = "heading" <;>
      simp [hpFramesR, closeFrame, Frame.addChild, Frame.toTree, hpChildren_append,
        hpChildren_single, hpTree_mk, hnext, htop, List.append_assoc]

theorem hdFramesR_merge (top next : Frame) (rest : List Frame) :
    hdFramesR (closeFrame top next :: rest) = hdFramesR (top :: next :: rest) := by
  by_cases hnext : next.data.nodeType = "heading" <;>
    by_cases htop : top.data.nodeType = "heading" <;>
      simp [hdFramesR, closeFrame, Frame.addChild, Frame.toTree, hdChildren_append,
        hdChildren_cons, hdChildren_nil, hdTree_mk, hnext, htop, List.append_assoc]

theorem hp_closeAll :
    ∀ (rest : List Frame) (top : Frame) (p : Option Nat) (c : Nat),
      hpTree p c (closeAll top rest).toTree = (hpFramesR p c (top :: rest)).2 := by
  intro rest
  induction rest with
  | nil =>
    intro top p c
    by_cases h : top.data.nodeType = "heading" <;>
      simp [closeAll, hpFramesR, hpTree_mk, Frame.toTree, h]
  | cons next rest ih =>
    intro top p c
    show hpTree p c (closeAll (closeFrame top next) rest).toTree = _
    rw [ih (closeFrame top next) p c, hpFramesR_merge]

theorem hd_closeAll :
    ∀ (rest : List Frame) (top : Frame),
      hdTree (closeAll top rest).toTree = hdFramesR (top :: rest) := by
  intro rest
  induction rest with
  | nil =>
    intro top
    by_cases h : top.data.nodeType = "heading" <;>
      simp [closeAll, hdFramesR, hdTree_mk, Frame.toTree, h]
  | cons next rest ih =>
    intro top
    show hdTree (closeAll (closeFrame top next) rest).toTree = _
    rw [ih (closeFrame top next), hdFramesR_merge]

theorem closeAll_data :
    ∀ (rest : List Frame) (top : Frame),
      (closeAll top rest).data = (rest.getLastD top).data := by
  intro rest
  induction rest with
  | nil => intro top; rfl
  | cons next rest ih =>
    intro top
    show (closeAll (closeFrame top next) rest).data = _
    rw [ih]
    cases rest with
    | nil => rfl
    | cons r rs =>
      cases h : (r :: rs).getLast? with
      | none => exact absurd h (by simp)
      | some x => simp [List.getLastD, h]

/-! ## The visible-heading stack against the claim's nearest-preceding parent -/

theorem enumFrom_append {α : Type} (l₁ l₂ : List α) :
    ∀ n, (l₁ ++ l₂).enumFrom n = l₁.enumFrom n ++ l₂.enumFrom (n + l₁.length) := by
  induction l₁ with
  | nil => intro n; simp
  | cons a l ih =>
    intro n
    show (n, a) :: (l ++ l₂).enumFrom (n + 1) = ((n, a) :: l.enumFrom (n + 1)) ++ _
    rw [ih (n + 1)]
    simp only [List.cons_append, List.length_cons]
    have harg : n + 1 + l.length = n + (l.length + 1) := by omega
    rw [harg]

theorem enum_concat {α : Type} (ls : List α) (a : α) :
    (ls ++ [a]).enum = ls.enum ++ [(ls.length, a)] := by
  show (ls ++ [a]).enumFrom 0 = ls.enumFrom 0 ++ [(ls.length, a)]
  rw [enumFrom_append]
  simp

theorem visStack_snoc (ls : List Nat) (a : Nat) :
    visStack (ls ++ [a]) = pushVis (visStack ls) ls.length a := by
  unfold visStack
  rw [enum_concat, List.foldl_append]
  rfl

theorem dropWhile_dropWhile {α : Type} (p q : α → Bool)
    (himp : ∀ x, q x = true → p x = true) :
    ∀ l : List α, (l.dropWhile q).dropWhile p = l.dropWhile p := by
  intro l
  induction l with
  | nil => rfl
  | cons a l ih =>
    cases hq : q a with
    | true =>
      rw [List.dropWhile_cons_of_pos hq, List.dropWhile_cons_of_pos (himp a hq), ih]
    | false =>
      rw [List.dropWhile_cons_of_neg (by simp [hq])]

theorem getD_append_lt {α : Type} (xs ys : List α) (i : Nat) (h : i < xs.length) (d : α) :
    (xs ++ ys).getD i d = xs.getD i d := by
  rw [List.getD_eq_getElem?_getD, List.getD_eq_getElem?_getD, List.getElem?_append_left h]

theorem getD_append_len {α : Type} (xs : List α) (a : α) (d : α) :
    (xs ++ [a]).getD xs.length d = a := by
  rw [List.getD_eq_getElem?_getD, List.getElem?_append_right (Nat.le_refl _)]
  simp

theorem lastBelow_snoc (ls : List Nat) (a l : Nat) :
    lastBelow (ls ++ [a]) l = if a < l then some ls.length else lastBelow ls l := by
  unfold lastBelow
  rw [List.length_append, List.length_singleton, List.range_succ, List.filter_append]
  have h1 : (List.range ls.length).filter (fun j => (ls ++ [a]).getD j 0 < l) =
      (List.range ls.length).filter (fun j => ls.getD j 0 < l) := by
    apply List.filter_congr
    intro j hj
    rw [getD_append_lt ls [a] j (List.mem_range.mp hj) 0]
  rw [h1]
  have h2 : (ls ++ [a]).getD ls.length 0 = a := getD_append_len ls a 0
  by_cases hal : a < l
  · rw [if_pos hal]
    have : [ls.length].filter (fun j => (ls ++ [a]).getD j 0 < l) = [ls.length] := by
      simp [h2, hal]
    rw [this, List.getLast?_concat]
  · rw [if_neg hal]
    have : [ls.length].filter (fun j => (ls ++ [a]).getD j 0 < l) = [] := by
      simp [h2, hal]
    rw [this, List.append_nil]

theorem lastLower_snoc_prefix (ls : List Nat) (a : Nat) (k : Nat) (hk : k < ls.length) :
    lastLower (ls ++ [a]) k = lastLower ls k := by
  unfold lastLower
  congr 1
  apply List.filter_congr
  intro j hj
  have hj' : j < k := List.mem_range.mp hj
  rw [getD_append_lt ls [a] j (by omega) 0, getD_append_lt ls [a] k hk 0]

theorem lastLower_concat_self (ls : List Nat) (a : Nat) :
    lastLower (ls ++ [a]) ls.length = lastBelow ls a := by
  unfold lastLower lastBelow
  congr 1
  apply List.filter_congr
  intro j hj
  rw [getD_append_lt ls [a] j (List.mem_range.mp hj) 0, getD_append_len ls a 0]

theorem specParents_snoc (ls : List Nat) (a : Nat) :
    specParents (ls ++ [a]) = specParents ls ++ [lastBelow ls a] := by
  unfold specParents
  rw [List.length_append, List.length_singleton, List.range_succ, List.map_append]
  congr 1
  · apply List.map_congr_left
    intro k hk
    exact lastLower_snoc_prefix ls a k (List.mem_range.mp hk)
  · rw [List.map_singleton, lastLower_concat_self]

/-- The top of the visible stack after discarding levels ≥ l is exactly the
nearest preceding heading with level < l. -/
theorem visStack_dropWhile_head :
    ∀ (ls : List Nat) (l : Nat),
      ((visStack ls).dropWhile (fun q => l ≤ q.2)).head?.map Prod.fst = lastBelow ls l := by
  intro ls
  induction ls using List.reverseRecOn with
  | nil => intro l; simp [visStack, lastBelow]
  | append_singleton ls a ih =>
    intro l
    rw [visStack_snoc, lastBelow_snoc]
    unfold pushVis
    by_cases hla : l ≤ a
    · rw [List.dropWhile_cons_of_pos (by simpa using hla)]
      rw [dropWhile_dropWhile (fun q : Nat × Nat => l ≤ q.2) (fun q : Nat × Nat => a ≤ q.2)
        (fun x hx => by simp at hx ⊢; omega)]
      rw [ih l, if_neg (by omega)]
    · rw [List.dropWhile_cons_of_neg (by simpa using hla)]
      rw [if_pos (by omega)]
      rfl

/-! ## Lemmas about the stack-shape invariant -/

theorem StackOkT_nil {vs : List (Nat × Nat)} {c n : Nat} (h : StackOkT [] vs c n) :
    vs = [] ∧ c = n := by
  cases vs with
  | nil => exact ⟨rfl, h⟩
  | cons q vs => exact absurd h (by simp [StackOkT])

theorem StackOkT_cons {f : Frame} {fs : List Frame} {vs : List (Nat × Nat)} {c n : Nat}
    (h : StackOkT (f :: fs) vs c n) :
    ∃ j lv vs', vs = (j, lv) :: vs' ∧
      f.data.nodeType = "heading" ∧ f.data.level = lv ∧ StackOkT fs vs' c j ∧
      (hpChildren (some j) (j + 1) f.children).1 = n := by
  cases vs with
  | nil => exact absurd h (by simp [StackOkT])
  | cons q vs' =>
    obtain ⟨h1, h2, h3, h4⟩ := h
    exact ⟨q.1, q.2, vs', rfl, h1, h2, h3, h4⟩

/-- Counter after absorbing a closed heading subtree: the subtree's headings
continue the numbering. -/
theorem hpChildren_snoc_frame (p : Option Nat) (c : Nat) (cs : List Tree) (f : Frame)
    (hf : f.data.nodeType = "heading") :
    (hpChildren p c (cs ++ [f.toTree])).1 =
      (hpChildren (some (hpChildren p c cs).1) ((hpChildren p c cs).1 + 1) f.children).1 := by
  rw [hpChildren_append, hpChildren_single, Frame.toTree, hpTree_mk, if_pos hf]

/-- Merging the top frame into the heading frame below preserves the stack
invariant, discarding the top visible entry. -/
theorem StackOkT_merge {f g : Frame} {fs : List Frame} {jf lf jg lg : Nat}
    {vs : List (Nat × Nat)} {cBot n : Nat}
    (h : StackOkT (f :: g :: fs) ((jf, lf) :: (jg, lg) :: vs) cBot n) :
    StackOkT (closeFrame f g :: fs) ((jg, lg) :: vs) cBot n := by
  obtain ⟨hf, _, hInner, hcnt⟩ := h
  obtain ⟨hg, hglv, hStack, hgcnt⟩ := hInner
  refine ⟨hg, hglv, hStack, ?_⟩
  show (hpChildren (some jg) (jg + 1) (g.children ++ [f.toTree])).1 = n
  rw [hpChildren_snoc_frame _ _ _ _ hf, hgcnt, hcnt]

/-- The frame-stack evaluation agrees with the stack invariant: the final
counter is the total heading count and the pending parent pointer is the
topmost visible heading. -/
theorem hpFramesR_of_StackOkT :
    ∀ (hfs : List Frame) (vs : List (Nat × Nat)) (rootF : Frame) (n : Nat),
      rootF.data = rootData →
      StackOkT hfs vs (hpChildren none 0 rootF.children).1 n →
      (hpFramesR none 0 (hfs ++ [rootF])).2.1 = n ∧
      (hpFramesR none 0 (hfs ++ [rootF])).1 = vs.head?.map Prod.fst := by
  intro hfs
  induction hfs with
  | nil =>
    intro vs rootF n hroot h
    obtain ⟨hvs, hc⟩ := StackOkT_nil h
    subst hvs
    have hnr : rootF.data.nodeType ≠ "heading" := by rw [hroot]; decide
    constructor
    · show (hpFramesR none 0 [rootF]).2.1 = n
      simp [hpFramesR, hnr, ← hc]
    · show (hpFramesR none 0 [rootF]).1 = none
      simp [hpFramesR, hnr]
  | cons f fs ih =>
    intro vs rootF n hroot h
    obtain ⟨j, lv, vs', hvs, hf, _, hStack, hcnt⟩ := StackOkT_cons h
    subst hvs
    obtain ⟨ih1, ih2⟩ := ih vs' rootF j hroot hStack
    constructor
    · show (hpFramesR none 0 (f :: (fs ++ [rootF]))).2.1 = n
      simp only [hpFramesR, hf, if_pos]
      rw [ih1, hcnt]
    · show (hpFramesR none 0 (f :: (fs ++ [rootF]))).1 = some j
      simp only [hpFramesR, hf, if_pos]
      rw [ih1]

/-! ## Paragraph attachment leaves the heading structure unchanged -/

theorem hpFramesR_addChild_para (p : Option Nat) (c : Nat) (f : Frame) (fs : List Frame)
    (content : String) :
    hpFramesR p c (f.addChild (.mk ⟨"paragraph", content, 0⟩ []) :: fs) =
      hpFramesR p c (f :: fs) := by
  by_cases hf : f.data.nodeType = "heading" <;>
    simp [hpFramesR, Frame.addChild, hpChildren_append, hpChildren_single, hpTree_para, hf]

theorem hdFramesR_addChild_para (f : Frame) (fs : List Frame) (content : String) :
    hdFramesR (f.addChild (.mk ⟨"paragraph", content, 0⟩ []) :: fs) = hdFramesR (f :: fs) := by
  by_cases hf : f.data.nodeType = "heading" <;>
    simp [hdFramesR, Frame.addChild, hdChildren_append, hdChildren_cons, hdChildren_nil,
      hdTree_para, hf]

theorem StackOkT_addChild_para {f : Frame} {fs : List Frame} {vs : List (Nat × Nat)}
    {cBot n : Nat} (content : String) (h : StackOkT (f :: fs) vs cBot n) :
    StackOkT (f.addChild (.mk ⟨"paragraph", content, 0⟩ []) :: fs) vs cBot n := by
  obtain ⟨j, lv, vs', hvs, hf, hflv, hStack, hcnt⟩ := StackOkT_cons h
  subst hvs
  refine ⟨hf, hflv, hStack, ?_⟩
  show (hpChildren (some j) (j + 1) (f.children ++ [Tree.mk ⟨"paragraph", content, 0⟩ []])).1 = n
  rw [hpChildren_append, hpChildren_single, hpTree_para]
  exact hcnt

/-! ## Element-stream bookkeeping -/

theorem headingLevels_snoc_heading (p : List Elem) (l : Nat) (t : String) :
    headingLevels (p ++ [.heading l t]) = headingLevels p ++ [l] := by
  simp [headingLevels, List.filterMap_append]

theorem headingLevels_snoc_para (p : List Elem) (t : String) :
    headingLevels (p ++ [.para t]) = headingLevels p := by
  simp [headingLevels, List.filterMap_append]

theorem headingLevels_snoc_other (p : List Elem) :
    headingLevels (p ++ [.other]) = headingLevels p := by
  simp [headingLevels, List.filterMap_append]

theorem headingDatas_snoc_heading (p : List Elem) (l : Nat) (t : String) :
    headingDatas (p ++ [.heading l t]) = headingDatas p ++ [⟨"heading", strip t, l⟩] := by
  simp [headingDatas, List.filterMap_append]

theorem headingDatas_snoc_para (p : List Elem) (t : String) :
    headingDatas (p ++ [.para t]) = headingDatas p := by
  simp [headingDatas, List.filterMap_append]

theorem headingDatas_snoc_other (p : List Elem) :
    headingDatas (p ++ [.other]) = headingDatas p := by
  simp [headingDatas, List.filterMap_append]

/-! ## The pop loop preserves the builder invariant -/

theorem popWhile_inv :
    ∀ (rest : List Frame) (top : Frame) (l : Nat) (vs : List (Nat × Nat)) (n : Nat)
      (ps : List (Option Nat)) (hds : List NodeData),
      StateInv (top, rest) vs n ps hds →
      StateInv (popWhile l top rest) (vs.dropWhile (fun q => l ≤ q.2)) n ps hds := by
  intro rest
  induction rest with
  | nil =>
    intro top l vs n ps hds h
    obtain ⟨hfs, rootF, hfr, hroot, hStack, hhp, hhd⟩ := h
    simp only [frames] at hfr
    have hfs0 : hfs = [] := by
      cases hfs with
      | nil => rfl
      | cons a as =>
        exfalso
        have hlen := congrArg List.length hfr
        simp [List.length_append] at hlen
    subst hfs0
    have hvs : vs = [] := (StackOkT_nil hStack).1
    subst hvs
    show StateInv (popWhile l top []) _ n ps hds
    exact ⟨[], rootF, by simpa [frames, popWhile] using hfr, hroot, hStack, hhp, hhd⟩
  | cons next rest ih =>
    intro top l vs n ps hds h
    obtain ⟨hfs, rootF, hfr, hroot, hStack, hhp, hhd⟩ := h
    simp only [frames] at hfr hhp hhd
    cases hfs with
    | nil =>
      exfalso
      have hlen := congrArg List.length hfr
      simp [List.length_append] at hlen
    | cons f hfs' =>
      simp only [List.cons_append, List.cons.injEq] at hfr
      obtain ⟨hftop, hlist⟩ := hfr
      subst hftop
      obtain ⟨j, lv, vs', hvs, htop, hlev, hStack', hcnt⟩ := StackOkT_cons hStack
      subst hvs
      by_cases hcond : l ≤ top.data.level
      · have hstep : popWhile l top (next :: rest) = popWhile l (closeFrame top next) rest := by
          simp [popWhile, hcond]
        have hllv : l ≤ lv := hlev ▸ hcond
        have hdrop : ((j, lv) :: vs').dropWhile (fun q => l ≤ q.2) =
            vs'.dropWhile (fun q => l ≤ q.2) :=
          List.dropWhile_cons_of_pos (by simpa using hllv)
        rw [hstep, hdrop]
        apply ih (closeFrame top next) l vs' n ps hds
        cases hfs' with
        | nil =>
          simp only [List.nil_append, List.cons.injEq] at hlist
          obtain ⟨hnr, hrest⟩ := hlist
          subst hrest
          obtain ⟨hvs', hc0⟩ := StackOkT_nil hStack'
          subst hvs'
          refine ⟨[], closeFrame top next, by simp [frames], ?_, ?_, ?_, ?_⟩
          · show next.data = rootData
            rw [hnr]
            exact hroot
          · have hcc : (hpChildren none 0 (next.children ++ [top.toTree])).1 = n := by
              rw [hpChildren_snoc_frame _ _ _ _ htop, hnr, hc0, hcnt]
            show StackOkT [] [] (hpChildren none 0 (closeFrame top next).children).1 n
            simpa [StackOkT, closeFrame, Frame.addChild] using hcc
          · simp only [frames]
            rw [hpFramesR_merge]
            exact hhp
          · simp only [frames]
            rw [hdFramesR_merge]
            exact hhd
        | cons g hfs'' =>
          simp only [List.cons_append, List.cons.injEq] at hlist
          obtain ⟨hng, hrest⟩ := hlist
          subst hng
          subst hrest
          refine ⟨closeFrame top next :: hfs'', rootF, by simp [frames], hroot, ?_, ?_, ?_⟩
          · obtain ⟨jg, lg, vs'', hvs', hg, hglv, hStack'', hgcnt⟩ := StackOkT_cons hStack'
            subst hvs'
            exact StackOkT_merge ⟨htop, hlev, ⟨hg, hglv, hStack'', hgcnt⟩, hcnt⟩
          · simp only [frames]
            rw [hpFramesR_merge]
            exact hhp
          · simp only [frames]
            rw [hdFramesR_merge]
            exact hhd
      · have hstep : popWhile l top (next :: rest) = (top, next :: rest) := by
          simp [popWhile, hcond]
        have hnlv : ¬ l ≤ lv := hlev ▸ hcond
        have hdrop : ((j, lv) :: vs').dropWhile (fun q => l ≤ q.2) = (j, lv) :: vs' :=
          List.dropWhile_cons_of_neg (by simpa using hnlv)
        rw [hstep, hdrop]
        exact ⟨top :: hfs', rootF, by simp [frames, hlist], hroot, hStack, hhp, hhd⟩

/-! ## Each processor step preserves the builder invariant -/

theorem processElem_heading (S : Frame × List Frame) (l : Nat) (txt : String) :
    processElem S (.heading l txt) =
      (⟨⟨"heading", strip txt, l⟩, []⟩, (popWhile l S.1 S.2).1 :: (popWhile l S.1 S.2).2) := by
  cases hq : popWhile l S.1 S.2 with
  | mk top rest => simp [processElem, hq]

theorem processElem_para_empty (S : Frame × List Frame) (txt : String)
    (h : strip txt = "") : processElem S (.para txt) = S := by
  simp [processElem, h]

theorem processElem_para_ne (S : Frame × List Frame) (txt : String) (h : ¬ strip txt = "") :
    processElem S (.para txt) =
      (S.1.addChild (.mk ⟨"paragraph", strip txt, 0⟩ []), S.2) := by
  simp [processElem, h]

theorem processElem_other (S : Frame × List Frame) : processElem S .other = S := rfl

theorem step_heading (p : List Elem) (S : Frame × List Frame) (l : Nat) (txt : String)
    (h : GoodState p S) : GoodState (p ++ [.heading l txt]) (processElem S (.heading l txt)) := by
  cases S with
  | mk top0 rest0 =>
    have hpop := popWhile_inv rest0 top0 l (visStack (headingLevels p))
      (headingLevels p).length (specParents (headingLevels p)) (headingDatas p) h
    rcases hqp : popWhile l top0 rest0 with ⟨top', rest'⟩
    rw [hqp] at hpop
    obtain ⟨hfsD, rootF, hfrD, hrootD, hStackD, hhpD, hhdD⟩ := hpop
    simp only [frames] at hfrD hhpD hhdD
    rw [hfrD] at hhpD hhdD
    have hchain := hpFramesR_of_StackOkT hfsD _ rootF (headingLevels p).length hrootD hStackD
    have hvis := visStack_dropWhile_head (headingLevels p) l
    rw [processElem_heading]
    show GoodState _ (⟨⟨"heading", strip txt, l⟩, []⟩,
      (popWhile l top0 rest0).1 :: (popWhile l top0 rest0).2)
    rw [hqp]
    unfold GoodState
    rw [headingLevels_snoc_heading, headingDatas_snoc_heading, visStack_snoc, specParents_snoc]
    refine ⟨⟨⟨"heading", strip txt, l⟩, []⟩ :: hfsD, rootF, by simp [frames, hfrD], hrootD,
      ?_, ?_, ?_⟩
    · show StackOkT _ (pushVis _ _ _) _ _
      unfold pushVis
      refine ⟨rfl, rfl, hStackD, ?_⟩
      rw [hpChildren_nil]
      simp
    · show (hpFramesR none 0 (⟨⟨"heading", strip txt, l⟩, []⟩ :: (top' :: rest'))).2 = _
      rw [hfrD]
      have hfsplit : (⟨⟨"heading", strip txt, l⟩, []⟩ :: (hfsD ++ [rootF])) =
          (⟨⟨"heading", strip txt, l⟩, []⟩ : Frame) :: (hfsD ++ [rootF]) := rfl
      simp only [hpFramesR, if_true]
      rw [hpChildren_nil]
      have h1 : (hpFramesR none 0 (hfsD ++ [rootF])).2 = ((headingLevels p).length,
          specParents (headingLevels p)) := hhpD
      have h2 : (hpFramesR none 0 (hfsD ++ [rootF])).1 = lastBelow (headingLevels p) l := by
        rw [hchain.2, hvis]
      rw [Prod.ext_iff] at h1
      simp only [List.length_append, List.length_singleton]
      rw [h1.1, h1.2, h2]
    · show hdFramesR (⟨⟨"heading", strip txt, l⟩, []⟩ :: (top' :: rest')) = _
      rw [hfrD]
      simp only [hdFramesR, if_true]
      rw [hhdD, hdChildren_nil]
      simp

theorem step_para (p : List Elem) (S : Frame × List Frame) (txt : String)
    (h : GoodState p S) : GoodState (p ++ [.para txt]) (processElem S (.para txt)) := by
  unfold GoodState
  rw [headingLevels_snoc_para, headingDatas_snoc_para]
  by_cases hc : strip txt = ""
  · rw [processElem_para_empty S txt hc]
    exact h
  · rw [processElem_para_ne S txt hc]
    obtain ⟨hfs, rootF, hfr, hroot, hStack, hhp, hhd⟩ := h
    cases S with
    | mk top0 rest0 =>
      simp only [frames] at hfr hhp hhd
      cases hfs with
      | nil =>
        have hsplit : top0 = rootF ∧ rest0 = [] := by simpa using hfr
        obtain ⟨h1, h2⟩ := hsplit
        subst h1
        subst h2
        have hvs : visStack (headingLevels p) = [] := (StackOkT_nil hStack).1
        have hc0 : (hpChildren none 0 top0.children).1 = (headingLevels p).length :=
          (StackOkT_nil hStack).2
        refine ⟨[], top0.addChild (.mk ⟨"paragraph", strip txt, 0⟩ []),
          by simp [frames], by simpa [Frame.addChild] using hroot, ?_, ?_, ?_⟩
        · rw [hvs]
          show StackOkT [] [] (hpChildren none 0 (top0.children ++ _)).1 _
          rw [hpChildren_append, hpChildren_single, hpTree_para]
          simpa [StackOkT] using hc0
        · simp only [frames]
          rw [hpFramesR_addChild_para]
          exact hhp
        · simp only [frames]
          rw [hdFramesR_addChild_para]
          exact hhd
      | cons f hfs' =>
        simp only [List.cons_append, List.cons.injEq] at hfr
        obtain ⟨h1, h2⟩ := hfr
        subst h1
        refine ⟨top0.addChild (.mk ⟨"paragraph", strip txt, 0⟩ []) :: hfs', rootF,
          by simp [frames, h2], hroot, ?_, ?_, ?_⟩
        · exact StackOkT_addChild_para _ hStack
        · simp only [frames]
          rw [hpFramesR_addChild_para]
          exact hhp
        · simp only [frames]
          rw [hdFramesR_addChild_para]
          exact hhd

theorem runElems_snoc (es : List Elem) (e : Elem) :
    runElems (es ++ [e]) = processElem (runElems es) e := by
  simp [runElems, List.foldl_append]

/-- The builder invariant holds after processing any element stream. -/
theorem run_good : ∀ es : List Elem, GoodState es (runElems es) := by
  intro es
  induction es using List.reverseRecOn with
  | nil =>
    show GoodState [] initState
    refine ⟨[], ⟨rootData, []⟩, rfl, rfl, ?_, ?_, ?_⟩
    · show StackOkT [] (visStack (headingLevels [])) _ _
      simp [headingLevels, visStack, StackOkT, hpChildren_nil]
    · show (hpFramesR none 0 (frames initState)).2 = _
      simp [frames, initState, hpFramesR, hpChildren_nil, headingLevels, specParents, rootData]
    · show hdFramesR (frames initState) = _
      simp [frames, initState, hdFramesR, hdChildren_nil, headingDatas, rootData]
  | append_singleton es e ih =>
    rw [runElems_snoc]
    cases e with
    | heading l txt => exact step_heading es _ l txt ih
    | para txt => exact step_para es _ txt ih
    | other =>
      rw [processElem_other]
      unfold GoodState
      rw [headingLevels_snoc_other, headingDatas_snoc_other]
      exact ih

/-- Summary of the Tree Builder's output: heading parents are the claim's
nearest-preceding-smaller-level headings, the tree's headings in pre-order
are the stream's headings in document order, and the returned node is the
(never popped) root. -/
theorem buildTree_props (es : List Elem) :
    headingParents (buildTree es) = specParents (headingLevels es) ∧
    hdTree (buildTree es) = headingDatas es ∧
    (buildTree es).data = rootData := by
  obtain ⟨hfs, rootF, hfr, hroot, _, hhp, hhd⟩ := run_good es
  rcases hS : runElems es with ⟨top0, rest0⟩
  rw [hS] at hfr hhp hhd
  simp only [frames] at hfr hhp hhd
  have hbt : buildTree es = (closeAll top0 rest0).toTree := by
    rw [buildTree, hS]
  refine ⟨?_, ?_, ?_⟩
  · show (hpTree none 0 (buildTree es)).2 = _
    rw [hbt, hp_closeAll, hhp]
  · rw [hbt, hd_closeAll, hhd]
  · rw [hbt]
    show (closeAll top0 rest0).data = rootData
    rw [closeAll_data]
    have hlast : rest0.getLastD top0 = rootF := by
      have h1 : (top0 :: rest0).getLastD rootF = rest0.getLastD top0 := List.getLastD_cons _ _ _
      rw [← h1, hfr]
      exact List.getLastD_concat _ _ _
    rw [hlast, hroot]

/-! ## C1 and C4: the claims about the Tree Builder -/

/-- C1.  For every element stream, identifying heading nodes by their
document position (justified by the second conjunct: the tree's heading
nodes in pre-order are exactly the stream's headings in document order),
every heading of level L is attached under the nearest preceding heading
with level strictly less than L — `headingParents` equals the claim's
`specParents`, whose entry for position k is the greatest j < k with a
smaller level, `none` meaning the root; and the root is never popped: the
returned tree's node is still the root node. -/
theorem C1_heading_nesting :
    ∀ es : List Elem,
      headingParents (buildTree es) = specParents (headingLevels es) ∧
      hdTree (buildTree es) = headingDatas es ∧
      (buildTree es).data = rootData := by
  intro es
  exact buildTree_props es

/-- C4 counterexample.  A heading element whose inner text is empty after
trimming still creates a tree node: processing the single element
`heading 1 "  "` leaves the root with one child, while the claim says no
node may be created for it. -/
theorem C4_empty_heading_counterexample :
    strip "  " = "" ∧ (buildTree [Elem.heading 1 "  "]).children.length = 1 := by
  exact ⟨rfl, rfl⟩

/-- C4 amended.  Only paragraph elements with empty trimmed text are
skipped (processing such a paragraph anywhere in the stream leaves the tree
unchanged); a heading element always creates a heading node, with its
trimmed (possibly empty) text. -/
theorem C4_empty_skip :
    ∀ (p s : List Elem) (txt : String) (l : Nat),
      (strip txt = "" → buildTree (p ++ Elem.para txt :: s) = buildTree (p ++ s)) ∧
      hdTree (buildTree (p ++ [Elem.heading l txt])) =
        hdTree (buildTree p) ++ [⟨"heading", strip txt, l⟩] := by
  intro p s txt l
  constructor
  · intro h
    have hrun : runElems (p ++ Elem.para txt :: s) = runElems (p ++ s) := by
      unfold runElems
      rw [List.foldl_append, List.foldl_append, List.foldl_cons,
        processElem_para_empty _ txt h]
    rw [buildTree, buildTree, hrun]
  · rw [(buildTree_props (p ++ [Elem.heading l txt])).2.1, (buildTree_props p).2.1,
      headingDatas_snoc_heading]

theorem C4_empty_skip_witness :
    buildTree ([] ++ Elem.para " " :: []) = buildTree ([] ++ []) ∧
    hdTree (buildTree ([] ++ [Elem.heading 1 " "])) =
      hdTree (buildTree []) ++ [⟨"heading", strip " ", 1⟩] :=
  ⟨(C4_empty_skip [] [] " " 1).1 rfl, (C4_empty_skip [] [] " " 1).2⟩

end KookyKangaroo
